import Mathlib

set_option autoImplicit false

/-
  Verification of the proxycache repository: a shallow embedding of the
  slot-pool / prefix-matching core (hashing.py, slot_manager.py, app.py)
  with theorems settling the specification claims.
-/

namespace ProxyCache

/-! ## hashing.py -/

/-- Embedding of Python str.strip(): remove leading and trailing whitespace. -/
def pyStrip (s : String) : String :=
  String.mk (((s.toList.dropWhile Char.isWhitespace).reverse.dropWhile Char.isWhitespace).reverse)

/-- Accumulating scan over the characters: acc holds the reversed current
run of non-whitespace characters; each completed run becomes one word. -/
def splitWordsAux : List Char → List Char → List String
  | [], acc => if acc = [] then [] else [String.mk acc.reverse]
  | c :: cs, acc =>
      if c.isWhitespace then
        (if acc = [] then [] else [String.mk acc.reverse]) ++ splitWordsAux cs []
      else splitWordsAux cs (c :: acc)

/-- hashing.words_from_text: re.findall applied with the non-whitespace-run
pattern, yielding the maximal runs of non-whitespace characters in order. -/
def wordsFromText (text : String) : List String :=
  splitWordsAux text.toList []

/-- The window decomposition performed by hashing.block_hashes_from_text:
the Python loop is for i in range(0, len(ws), max(1, wpb)) with the slice
ws[i:i+wpb].  For a non-empty list, dropping max 1 w elements equals
dropping w - 1 elements of the tail, for every natural w. -/
def blockChunks (w : Nat) : List String → List (List String)
  | [] => []
  | x :: xs => (x :: xs).take w :: blockChunks w (xs.drop (w - 1))
termination_by ws => ws.length
decreasing_by
  simp only [List.length_drop, List.length_cons]
  omega

/-- hashing.block_hashes_from_text, with the SHA-256 hex digest abstracted
as the function H: the source computes
hashlib.sha256(" ".join(ws[i:i+wpb]).encode("utf-8")).hexdigest() per window. -/
def blockHashesFromText (H : String → String) (text : String) (wpb : Nat) : List String :=
  (blockChunks wpb (wordsFromText text)).map (fun b => H (String.intercalate " " b))

/-- hashing.lcp_blocks: length of the common prefix of two hash chains. -/
def lcpBlocks : List String → List String → Nat
  | a :: as, b :: bs => if a = b then lcpBlocks as bs + 1 else 0
  | _, _ => 0

/-- The denominator max(1, min(len(a), len(b))) used by both
SlotManager._best_active_lcp and SlotManager._best_restore_candidate. -/
def simDenom (a b : List String) : Nat :=
  max 1 (min a.length b.length)

/-- The similarity value l / denom computed by both LCP phases of the
matching engine; Python float division is embedded as the exact rational
mkRat l denom, which equals (l : ℚ) / (denom : ℚ) since the denominator is
never zero. -/
def ratioOf (a b : List String) : ℚ :=
  mkRat (lcpBlocks a b) (simDenom a b)

/-! ## Canonicalisation (hashing.normalize_content, canonical_chat_prefix) -/

/-- One element of an OpenAI content parts list: a text part carries the
string of a dict with type "text"; every other part shape is skipped. -/
inductive ChatPart
  | textPart (t : String)
  | otherPart
deriving DecidableEq, Repr

/-- The JSON shapes of a message content field handled by
hashing.normalize_content: null, a string, or a parts list. -/
inductive ChatContent
  | null
  | str (s : String)
  | parts (ps : List ChatPart)
deriving DecidableEq, Repr

/-- An OpenAI chat message as consumed by canonical_chat_prefix: a role
field (possibly absent) and a content field. -/
structure ChatMessage where
  role : Option String
  content : ChatContent
deriving DecidableEq, Repr

/-- hashing.normalize_content: None yields "", a string is stripped, a parts
list keeps the stripped non-empty texts of the text parts joined by a space. -/
def normalizeContent : ChatContent → String
  | .null => ""
  | .str s => pyStrip s
  | .parts ps =>
      pyStrip (String.intercalate " " (ps.filterMap (fun p =>
        match p with
        | .textPart t =>
            let t2 := pyStrip t
            if t2 = "" then none else some t2
        | .otherPart => none)))

/-- Embedding of Python str.lower() character by character. -/
def pyLower (s : String) : String :=
  String.mk (s.toList.map Char.toLower)

/-- The role normalisation inside canonical_chat_prefix: strip and lowercase
the role, and replace anything outside system, user, assistant by user. -/
def roleLabel (role : Option String) : String :=
  let r := pyLower (pyStrip (role.getD ""))
  if r = "system" ∨ r = "user" ∨ r = "assistant" then r else "user"

/-- hashing.canonical_chat_prefix.  sysPromptRaw stands for the text read by
_read_system_prompt ("" when the file is absent or unreadable); the source
strips it and, when non-empty, prepends a "[system]: " block.  Each message
with non-empty normalised content contributes one "[role]: content" line;
the lines are joined with a newline, the result is stripped, and when
add_bos holds the marker line "<BOS>" is prepended.  No terminal assistant
marker is appended. -/
def canonicalChatPrefix (messages : List ChatMessage) (sysPromptRaw : String) (addBos : Bool) : String :=
  let sysPrompt := pyStrip sysPromptRaw
  let sysParts : List String := if sysPrompt ≠ "" then ["[system]: " ++ sysPrompt] else []
  let msgParts : List String := messages.filterMap (fun m =>
    let content := normalizeContent m.content
    if content = "" then none
    else some ("[" ++ roleLabel m.role ++ "]: " ++ content))
  let text := pyStrip (String.intercalate "\n" (sysParts ++ msgParts))
  if addBos then "<BOS>\n" ++ text else text

/-! ## Local metadata index (hashing.write_meta_for_key_local, scan filter) -/

/-- The first k characters of a string. -/
def strTake (s : String) (k : Nat) : String :=
  String.mk (s.toList.take k)

/-- The sequence of observable contents of the file key.meta.json during
hashing.write_meta_for_key_local, given the previous contents prev (none
when the file did not exist) and the serialised record text.  The source
opens the path with mode w, which truncates the file to "", and json.dump
then writes the serialised text; a reader (or a crash) can observe the
previous contents, the truncated file, or any partially written prefix,
and the completed write leaves the full record. -/
def metaWriteStates (prev : Option String) (record : String) : List (Option String) :=
  prev :: (List.range (record.length + 1)).map (fun k => some (strTake record k))

/-- Modelled from the spec: an atomic replace exposes only the previous
contents and then the complete new record. -/
def atomicReplaceStates (prev : Option String) (record : String) : List (Option String) :=
  [prev, some record]

/-- A metadata record as read back by scan_all_meta_local.  The
words_per_block and block_hashes JSON fields may be absent or null (none);
integer-valued words_per_block and string-list block_hashes cover the
records the proxy itself writes. -/
structure MetaRecord where
  key : String
  wordsPerBlock : Option Int
  blockHashes : Option (List String)
deriving DecidableEq, Repr

/-- Embedding of the Python expression m.get("words_per_block") or wpb for
an integer-or-missing field: an absent or null value and the falsy integer
0 both fall back to wpb. -/
def pyOrInt (v : Option Int) (d : Int) : Int :=
  match v with
  | none => d
  | some n => if n = 0 then d else n

/-- Embedding of m.get("block_hashes") or []: absent and null become the
empty list (a present empty list is falsy in Python and also yields []). -/
def pyOrList (v : Option (List String)) : List String :=
  match v with
  | none => []
  | some l => l

/-- The mixed-W filter of SlotManager._best_restore_candidate: a record is
kept iff int(m.get("words_per_block") or wpb) == wpb. -/
def restoreFilterKeeps (v : Option Int) (wpb : Int) : Bool :=
  pyOrInt v wpb == wpb

/-! ## slot_manager.py : state and helper structures -/

/-- A global slot identity (backend_id, local_slot_id). -/
abbrev GSlot := Nat × Nat

/-- slot_manager.SlotBinding.  Timestamps (time.time() floats) are embedded
as naturals supplied by the caller of each mutating operation. -/
structure SlotBinding where
  backendId : Nat
  localSlotId : Nat
  key : String
  prefixText : String
  blockHashes : List String
  wordsPerBlock : Nat
  hot : Bool
  lastUsedTs : Nat
deriving DecidableEq, Repr

/-- Lookup in an insertion-ordered association list (Python dict read):
the value of the first entry with the given key. -/
def alistGet {α β : Type} [DecidableEq α] (l : List (α × β)) (a : α) : Option β :=
  match l.find? (fun p => p.1 == a) with
  | some p => some p.2
  | none => none

/-- Python dict assignment d[a] = b: replace the value in place when the key
is present, append a new entry otherwise. -/
def alistSet {α β : Type} [DecidableEq α] (l : List (α × β)) (a : α) (b : β) : List (α × β) :=
  match l with
  | [] => [(a, b)]
  | p :: rest => if p.1 = a then (a, b) :: rest else p :: alistSet rest a b

/-- In-place mutation of the value stored under a key, when present. -/
def alistModify {α β : Type} [DecidableEq α] (l : List (α × β)) (a : α) (f : β → β) : List (α × β) :=
  match l with
  | [] => []
  | p :: rest => if p.1 = a then (p.1, f p.2) :: rest else p :: alistModify rest a f

/-- The in-memory state of SlotManager: the fixed slot enumeration
self._all_slots, the binding dict, the LRU dict self._last_used, the
configured pin set, the similarity threshold, and the backend count. -/
structure SMState where
  allSlots : List GSlot
  bindings : List (GSlot × SlotBinding)
  lastUsed : List (GSlot × Nat)
  pinned : List String
  simRatioMin : ℚ
  numBackends : Nat
deriving DecidableEq, Repr

/-- The timestamp used by _lrud_slots: self._last_used.get(g, b.last_used_ts). -/
def slotTs (st : SMState) (g : GSlot) (b : SlotBinding) : Nat :=
  (alistGet st.lastUsed g).getD b.lastUsedTs

/-- Stable insertion into a timestamp-ascending list (an element is placed
after every earlier element with an equal timestamp, as Python stable sort). -/
def insertByTs (p : Nat × GSlot) : List (Nat × GSlot) → List (Nat × GSlot)
  | [] => [p]
  | q :: rest => if p.1 < q.1 then p :: q :: rest else q :: insertByTs p rest

/-- Stable sort by ascending timestamp (pairs.sort(key = first component)). -/
def sortByTs : List (Nat × GSlot) → List (Nat × GSlot)
  | [] => []
  | p :: rest => insertByTs p (sortByTs rest)

/-- SlotManager._free_slots_all: the slots of _all_slots, in order, that are
not excluded and have no binding. -/
def freeSlotsAll (st : SMState) (exclude : List GSlot) : List GSlot :=
  st.allSlots.filter (fun g => !(exclude.contains g) && (alistGet st.bindings g).isNone)

/-- SlotManager._lrud_slots: the occupied non-excluded slots ordered by
ascending last-used timestamp. -/
def lrudSlots (st : SMState) (exclude : List GSlot) : List GSlot :=
  (sortByTs ((st.bindings.filter (fun p => !(exclude.contains p.1))).map
    (fun p => (slotTs st p.1 p.2, p.1)))).map Prod.snd

/-- The value of one hexadecimal digit, 0 for any other character. -/
def hexDigitVal (c : Char) : Nat :=
  if '0' ≤ c ∧ c ≤ '9' then c.toNat - '0'.toNat
  else if 'a' ≤ c ∧ c ≤ 'f' then c.toNat - 'a'.toNat + 10
  else if 'A' ≤ c ∧ c ≤ 'F' then c.toNat - 'A'.toNat + 10
  else 0

/-- Base-16 value of a hex string: models int(s, 16) on the hex keys the
proxy produces (SHA-256 hex digests). -/
def hexVal (s : String) : Nat :=
  s.toList.foldl (fun acc c => acc * 16 + hexDigitVal c) 0

/-- SlotManager._prefer_backend: int(req_key[:8], 16) modulo the backend
count (keys are 64-character hex digests, so the short-key hash() fallback
of the source is not reachable for keys the proxy derives). -/
def preferBackend (st : SMState) (reqKey : String) : Nat :=
  hexVal (strTake reqKey 8) % st.numBackends

/-- Stage 1 of acquire_free_or_cold_slot: the first slot of _all_slots on
the preferred backend that is not excluded and has no binding. -/
def stageFreePreferred (st : SMState) (exclude : List GSlot) (preferBackendId : Option Nat) : Option GSlot :=
  match preferBackendId with
  | none => none
  | some pb =>
      st.allSlots.find? (fun g =>
        !(exclude.contains g) && (g.1 == pb) && (alistGet st.bindings g).isNone)

/-- The test of stage 3: an occupied slot whose binding is cold and whose
key is not in PINNED_PREFIX_KEYS. -/
def coldUnpinnedPred (st : SMState) (g : GSlot) : Bool :=
  match alistGet st.bindings g with
  | some b => !b.hot && !(st.pinned.contains b.key)
  | none => false

/-- The test of stage 4: an occupied slot whose key is not pinned. -/
def unpinnedPred (st : SMState) (g : GSlot) : Bool :=
  match alistGet st.bindings g with
  | some b => !(st.pinned.contains b.key)
  | none => false

/-- SlotManager.acquire_free_or_cold_slot.  Stage order as in the source:
a free slot on the preferred backend, any free slot, the least recently
used cold unpinned slot, the least recently used unpinned slot, and as a
final fallback the least recently used occupied slot even when pinned;
none models the HTTPException 503 raised when no slot exists at all. -/
def acquireFreeOrColdSlot (st : SMState) (exclude : List GSlot) (preferBackendId : Option Nat) : Option GSlot :=
  match stageFreePreferred st exclude preferBackendId with
  | some g => some g
  | none =>
      match freeSlotsAll st exclude with
      | g :: _ => some g
      | [] =>
          match (lrudSlots st exclude).find? (coldUnpinnedPred st) with
          | some g => some g
          | none =>
              match (lrudSlots st exclude).find? (unpinnedPred st) with
              | some g => some g
              | none => (lrudSlots st exclude).head?

/-- SlotManager.touch: stamp the slot in _last_used and on its binding. -/
def touch (st : SMState) (g : GSlot) (ts : Nat) : SMState :=
  { st with
    lastUsed := alistSet st.lastUsed g ts,
    bindings := alistModify st.bindings g (fun b => { b with lastUsedTs := ts }) }

/-- SlotManager.mark_slot_cold: set hot := false on the binding of the slot
when one exists and is hot.  The pin set is not consulted. -/
def markSlotCold (st : SMState) (g : GSlot) : SMState :=
  match alistGet st.bindings g with
  | some b =>
      if b.hot then
        { st with bindings := alistModify st.bindings g (fun b0 => { b0 with hot := false }) }
      else st
  | none => st

/-! ## slot_manager.py : matching engine -/

/-- SlotManager._best_active_exact: the first hot binding, in dict order,
whose chain equals the request chain. -/
def bestActiveExact (st : SMState) (reqBlocks : List String) : Option (GSlot × SlotBinding) :=
  match st.bindings.find? (fun p => p.2.hot && (p.2.blockHashes == reqBlocks)) with
  | some p => some (p.1, p.2)
  | none => none

/-- Accumulator loop of _best_active_lcp: keep the strictly best similarity
seen so far, so the earliest hot binding wins ties, as in the source. -/
def bestActiveLcpAux (reqBlocks : List String) (best : Option (GSlot × SlotBinding × Nat × ℚ)) :
    List (GSlot × SlotBinding) → Option (GSlot × SlotBinding × Nat × ℚ)
  | [] => best
  | p :: rest =>
      if p.2.hot then
        let l := lcpBlocks reqBlocks p.2.blockHashes
        let r := ratioOf reqBlocks p.2.blockHashes
        let best2 :=
          match best with
          | none => some (p.1, p.2, l, r)
          | some t => if r > t.2.2.2 then some (p.1, p.2, l, r) else some t
        bestActiveLcpAux reqBlocks best2 rest
      else bestActiveLcpAux reqBlocks best rest

/-- SlotManager._best_active_lcp: the hot binding with the highest
similarity to the request chain, with its LCP count and ratio. -/
def bestActiveLcp (st : SMState) (reqBlocks : List String) : Option (GSlot × SlotBinding × Nat × ℚ) :=
  bestActiveLcpAux reqBlocks none st.bindings

/-- Accumulator loop of _best_restore_candidate over the scanned records,
skipping records whose effective words_per_block differs from the request. -/
def bestRestoreCandidateAux (reqBlocks : List String) (wpb : Int)
    (best : Option (String × Nat × ℚ × List String)) :
    List MetaRecord → Option (String × Nat × ℚ × List String)
  | [] => best
  | m :: rest =>
      if restoreFilterKeeps m.wordsPerBlock wpb then
        let candBlocks := pyOrList m.blockHashes
        let l := lcpBlocks reqBlocks candBlocks
        let r := ratioOf reqBlocks candBlocks
        let best2 :=
          match best with
          | none => some (m.key, l, r, candBlocks)
          | some t => if r > t.2.2.1 then some (m.key, l, r, candBlocks) else some t
        bestRestoreCandidateAux reqBlocks wpb best2 rest
      else bestRestoreCandidateAux reqBlocks wpb best rest

/-- SlotManager._best_restore_candidate applied to the records returned by
hashing.scan_all_meta_local (passed in as the metas argument). -/
def bestRestoreCandidate (metas : List MetaRecord) (reqBlocks : List String) (wpb : Int) :
    Option (String × Nat × ℚ × List String) :=
  bestRestoreCandidateAux reqBlocks wpb none metas

/-- The source tag returned by ensure_slot_for_request. -/
inductive Source
  | activeExact
  | activeLcp
  | restoreLcp
  | cold
deriving DecidableEq, Repr

/-- The exceptions escaping ensure_slot_for_request: the HTTPException 503
of slot selection, and the httpx error raised by a failed restore call
(`raise_for_status` in LlamaClient.restore_slot), which the source does not
catch. -/
inductive SMErr
  | noSlots
  | restoreFailed
deriving DecidableEq, Repr

/-- The tuple returned by ensure_slot_for_request together with the
post-call manager state. -/
structure EnsureResult where
  state : SMState
  slot : GSlot
  binding : SlotBinding
  source : Source
  lcpCount : Nat
  bindingTotal : Nat
deriving DecidableEq, Repr

/-- Binding installation common to the restore-lcp and cold stages:
SlotBinding(key=req_key, prefix_text, block_hashes=req_blocks,
words_per_block, hot=True) stored into the dict, followed by touch. -/
def installBinding (st : SMState) (g : GSlot) (reqKey prefixText : String)
    (reqBlocks : List String) (wpb : Nat) (ts : Nat) : SMState × SlotBinding :=
  let b : SlotBinding :=
    { backendId := g.1, localSlotId := g.2, key := reqKey, prefixText := prefixText,
      blockHashes := reqBlocks, wordsPerBlock := wpb, hot := true, lastUsedTs := ts }
  let st2 : SMState := { st with bindings := alistSet st.bindings g b }
  (touch st2 g ts, b)

/-- Stage 4 of ensure_slot_for_request: pick a free-or-cold slot preferring
the affinity backend and install a fresh binding, source cold. -/
def ensureCold (st : SMState) (ts : Nat) (reqKey prefixText : String)
    (reqBlocks : List String) (wpb : Nat) (exclude : List GSlot) : Except SMErr EnsureResult :=
  match acquireFreeOrColdSlot st exclude (some (preferBackend st reqKey)) with
  | none => .error .noSlots
  | some g =>
      let p := installBinding st g reqKey prefixText reqBlocks wpb ts
      .ok { state := p.1, slot := g, binding := p.2, source := .cold,
            lcpCount := 0, bindingTotal := p.1.bindings.length }

/-- Stages 3 and 4 of ensure_slot_for_request: try the best metadata
candidate when its ratio reaches the threshold, falling through to the cold
stage otherwise.  restoreOk tells whether the backend restore call for a
slot and basename succeeds; on failure the source raises out of the
function with the slot lock still held, which the error result models. -/
def ensureRestoreOrCold (st : SMState) (metas : List MetaRecord) (restoreOk : GSlot → String → Bool)
    (ts : Nat) (reqKey prefixText : String) (reqBlocks : List String) (wpb : Nat)
    (exclude : List GSlot) : Except SMErr EnsureResult :=
  match bestRestoreCandidate metas reqBlocks (Int.ofNat wpb) with
  | some (key2, l, r, _candBlocks) =>
      if r ≥ st.simRatioMin then
        match acquireFreeOrColdSlot st exclude (some (preferBackend st reqKey)) with
        | none => .error .noSlots
        | some g =>
            if restoreOk g key2 then
              let p := installBinding st g reqKey prefixText reqBlocks wpb ts
              .ok { state := p.1, slot := g, binding := p.2, source := .restoreLcp,
                    lcpCount := l, bindingTotal := p.1.bindings.length }
            else .error .restoreFailed
      else ensureCold st ts reqKey prefixText reqBlocks wpb exclude
  | none => ensureCold st ts reqKey prefixText reqBlocks wpb exclude

/-- SlotManager.ensure_slot_for_request: the four-tier ladder active-exact,
active-lcp with threshold, restore-lcp with threshold, cold.  A hot best
LCP candidate below the threshold is rejected and its slot is the exclude
set handed to the later stages.  Returned bindings of the active stages
carry the timestamp written by touch, as the source mutates and returns
the stored object. -/
def ensureSlotForRequest (st : SMState) (metas : List MetaRecord) (restoreOk : GSlot → String → Bool)
    (ts : Nat) (reqKey prefixText : String) (reqBlocks : List String) (wpb : Nat) :
    Except SMErr EnsureResult :=
  match bestActiveExact st reqBlocks with
  | some (g, b) =>
      .ok { state := touch st g ts, slot := g, binding := { b with lastUsedTs := ts },
            source := .activeExact, lcpCount := reqBlocks.length,
            bindingTotal := st.bindings.length }
  | none =>
      match bestActiveLcp st reqBlocks with
      | some (g, b, l, r) =>
          if r ≥ st.simRatioMin then
            .ok { state := touch st g ts, slot := g, binding := { b with lastUsedTs := ts },
                  source := .activeLcp, lcpCount := l, bindingTotal := st.bindings.length }
          else ensureRestoreOrCold st metas restoreOk ts reqKey prefixText reqBlocks wpb [g]
      | none => ensureRestoreOrCold st metas restoreOk ts reqKey prefixText reqBlocks wpb []

/-! ## app.py : dispatcher event order

The handler chat_completions is embedded as the ordered list of the
slot-relevant operations it performs on one request.  Python evaluation
order fixes the traces: a return statement runs the enclosing finally
block before the function ends, and the body of an async generator passed
to StreamingResponse runs only afterwards, when the server iterates the
returned response. -/

/-- The slot-relevant operations of app.chat_completions. -/
inductive DispatchEvent
  | acquireSlotLock
  | preflightOpen
  | backendJsonReceived
  | responseReturned
  | markColdEvent
  | releaseSlotLock
  | forwardChunk (i : Nat)
  | closeUpstream
deriving DecidableEq, Repr

/-- The large non-stream path: ensure_slot_for_request acquires the lock,
the backend JSON call completes, JSONResponse is returned, and the finally
block releases the lock. -/
def largeJsonDispatchEvents : List DispatchEvent :=
  [.acquireSlotLock, .backendJsonReceived, .responseReturned, .releaseSlotLock]

/-- The large streaming path with a 200 preflight and nChunks streamed
chunks: the lock is acquired, the preflight opens, StreamingResponse(gen())
is returned — running the finally block, which releases the lock — and the
generator then forwards the chunks and closes the upstream stream. -/
def largeStreamDispatchEvents (nChunks : Nat) : List DispatchEvent :=
  [.acquireSlotLock, .preflightOpen, .responseReturned, .releaseSlotLock]
    ++ (List.range nChunks).map DispatchEvent.forwardChunk ++ [.closeUpstream]

/-- The small streaming path: as the large one, but the finally block also
marks the slot cold before releasing the lock. -/
def smallStreamDispatchEvents (nChunks : Nat) : List DispatchEvent :=
  [.acquireSlotLock, .preflightOpen, .responseReturned, .markColdEvent, .releaseSlotLock]
    ++ (List.range nChunks).map DispatchEvent.forwardChunk ++ [.closeUpstream]

/-! ## Lemmas about the block chain -/

theorem blockChunks_nil (w : Nat) : blockChunks w [] = [] := by
  simp [blockChunks]

theorem blockChunks_cons (w : Nat) (x : String) (xs : List String) :
    blockChunks w (x :: xs) = (x :: xs).take w :: blockChunks w (xs.drop (w - 1)) := by
  rw [blockChunks]

theorem blockChunks_length (w : Nat) (hw : 1 ≤ w) (ws : List String) :
    (blockChunks w ws).length = (ws.length + w - 1) / w := by
  induction ws using blockChunks.induct w with
  | case1 =>
      rw [blockChunks_nil]
      have h2 : (w - 1) / w = 0 := Nat.div_eq_of_lt (by omega)
      simp [h2]
  | case2 x xs ih =>
      rw [blockChunks_cons]
      simp only [List.length_cons, List.length_drop] at ih ⊢
      rw [ih]
      have hw0 : 0 < w := hw
      have hright : xs.length + 1 + w - 1 = xs.length + w := by omega
      rw [hright, Nat.add_div_right _ hw0]
      rcases Nat.lt_or_ge xs.length (w - 1) with hm | hm
      · have h1 : xs.length - (w - 1) = 0 := by omega
        rw [h1]
        have h2 : (0 + w - 1) / w = 0 := Nat.div_eq_of_lt (by omega)
        have h3 : xs.length / w = 0 := Nat.div_eq_of_lt (by omega)
        omega
      · have h1 : xs.length - (w - 1) + w - 1 = xs.length := by omega
        rw [h1]

theorem blockChunks_get (w : Nat) (hw : 1 ≤ w) (ws : List String) (i : Nat) :
    (blockChunks w ws).get? i =
      if ws.drop (i * w) = [] then none else some ((ws.drop (i * w)).take w) := by
  induction ws using blockChunks.induct w generalizing i with
  | case1 =>
      rw [blockChunks_nil]
      simp
  | case2 x xs ih =>
      rw [blockChunks_cons]
      match i with
      | 0 => simp
      | j + 1 =>
          have hdrop : (xs.drop (w - 1)).drop (j * w) = (x :: xs).drop ((j + 1) * w) := by
            rw [List.drop_drop]
            have hsm : (j + 1) * w = j * w + w := by ring
            have h : (j + 1) * w = (j * w + (w - 1)) + 1 := by omega
            rw [h, List.drop_succ_cons]
            congr 1
            omega
          simp only [List.get?_cons_succ]
          rw [ih j, hdrop]

/-! ## Lemmas about the association lists and the selector -/

theorem alistGet_set_ne {α β : Type} [DecidableEq α] (l : List (α × β)) (a a2 : α) (b : β)
    (h : a2 ≠ a) : alistGet (alistSet l a b) a2 = alistGet l a2 := by
  have hb : (a == a2) = false := beq_eq_false_iff_ne.mpr (Ne.symm h)
  induction l with
  | nil => simp [alistSet, alistGet, List.find?, hb]
  | cons p rest ih =>
      by_cases hp : p.1 = a
      · simp [alistSet, alistGet, List.find?, hp, hb]
      · simp only [alistSet, hp, if_false]
        cases hq : (p.1 == a2) with
        | true => simp [alistGet, List.find?, hq]
        | false =>
            simp only [alistGet, List.find?, hq] at ih ⊢
            exact ih

theorem alistGet_modify_ne {α β : Type} [DecidableEq α] (l : List (α × β)) (a a2 : α) (f : β → β)
    (h : a2 ≠ a) : alistGet (alistModify l a f) a2 = alistGet l a2 := by
  have hb : (a == a2) = false := beq_eq_false_iff_ne.mpr (Ne.symm h)
  induction l with
  | nil => rfl
  | cons p rest ih =>
      by_cases hp : p.1 = a
      · simp only [alistModify, hp, if_true]
        have hpb : (p.1 == a2) = false := by rw [hp]; exact hb
        simp [alistGet, List.find?, hpb, hb]
      · simp only [alistModify, hp, if_false]
        cases hq : (p.1 == a2) with
        | true => simp [alistGet, List.find?, hq]
        | false =>
            simp only [alistGet, List.find?, hq] at ih ⊢
            exact ih

theorem alistModify_set_same {α β : Type} [DecidableEq α] (l : List (α × β)) (a : α) (b : β)
    (f : β → β) : alistModify (alistSet l a b) a f = alistSet l a (f b) := by
  induction l with
  | nil => simp [alistSet, alistModify]
  | cons p rest ih =>
      by_cases hp : p.1 = a
      · simp [alistSet, alistModify, hp]
      · simp [alistSet, alistModify, hp, ih]

theorem insertByTs_perm (p : Nat × GSlot) (l : List (Nat × GSlot)) :
    List.Perm (insertByTs p l) (p :: l) := by
  induction l with
  | nil => rfl
  | cons q rest ih =>
      by_cases h : p.1 < q.1
      · simp [insertByTs, h]
      · simp only [insertByTs, h, if_false]
        exact (List.Perm.cons q ih).trans (List.Perm.swap p q rest)

theorem sortByTs_perm (l : List (Nat × GSlot)) : List.Perm (sortByTs l) l := by
  induction l with
  | nil => rfl
  | cons p rest ih =>
      exact (insertByTs_perm p (sortByTs rest)).trans (List.Perm.cons p ih)

theorem mem_lrudSlots_iff (st : SMState) (exclude : List GSlot) (g : GSlot) :
    g ∈ lrudSlots st exclude ↔
      ∃ p ∈ st.bindings, p.1 = g ∧ exclude.contains p.1 = false := by
  unfold lrudSlots
  constructor
  · intro h
    rcases List.mem_map.mp h with ⟨pair, hpair, hsnd⟩
    have hpair2 := (sortByTs_perm _).mem_iff.mp hpair
    rcases List.mem_map.mp hpair2 with ⟨p, hp, hfp⟩
    rcases List.mem_filter.mp hp with ⟨hpmem, hpexc⟩
    rw [Bool.not_eq_true'] at hpexc
    refine ⟨p, hpmem, ?_, hpexc⟩
    have h2 : pair.2 = p.1 := by rw [← hfp]
    rw [← hsnd, h2]
  · rintro ⟨p, hpmem, hpg, hpexc⟩
    apply List.mem_map.mpr
    refine ⟨(slotTs st p.1 p.2, p.1), ?_, hpg⟩
    apply (sortByTs_perm _).mem_iff.mpr
    apply List.mem_map.mpr
    refine ⟨p, List.mem_filter.mpr ⟨hpmem, ?_⟩, rfl⟩
    rw [Bool.not_eq_true']
    exact hpexc

theorem contains_false_of_not_mem {α : Type} [BEq α] [LawfulBEq α] (l : List α) (a : α)
    (h : a ∉ l) : l.contains a = false := by
  rw [List.contains, List.elem_eq_mem]
  simp [h]

theorem not_mem_of_contains_false {α : Type} [BEq α] [LawfulBEq α] (l : List α) (a : α)
    (h : l.contains a = false) : a ∉ l := by
  rw [List.contains, List.elem_eq_mem] at h
  simpa using h

theorem mem_of_contains_true {α : Type} [BEq α] [LawfulBEq α] (l : List α) (a : α)
    (h : l.contains a = true) : a ∈ l := by
  rw [List.contains, List.elem_eq_mem] at h
  simpa using h

theorem alistGet_eq_some_mem {α β : Type} [DecidableEq α] (l : List (α × β)) (a : α) (b : β)
    (h : alistGet l a = some b) : ∃ p ∈ l, p.1 = a ∧ p.2 = b := by
  induction l with
  | nil => cases h
  | cons p rest ih =>
      cases hq : (p.1 == a) with
      | true =>
          simp only [alistGet, List.find?, hq] at h
          cases h
          exact ⟨p, List.mem_cons_self _ _, by simpa using hq, rfl⟩
      | false =>
          have h2 : alistGet rest a = some b := by
            simpa only [alistGet, List.find?, hq] using h
          rcases ih h2 with ⟨q, hqmem, hqa, hqb⟩
          exact ⟨q, List.mem_cons_of_mem _ hqmem, hqa, hqb⟩

theorem lrudSlots_not_excluded (st : SMState) (exclude : List GSlot) (g : GSlot)
    (h : g ∈ lrudSlots st exclude) : g ∉ exclude := by
  rcases (mem_lrudSlots_iff st exclude g).mp h with ⟨p, _, hpg, hpexc⟩
  rw [hpg] at hpexc
  exact not_mem_of_contains_false exclude g hpexc

theorem acquire_not_excluded (st : SMState) (exclude : List GSlot) (prefer : Option Nat)
    (g : GSlot) (h : acquireFreeOrColdSlot st exclude prefer = some g) : g ∉ exclude := by
  unfold acquireFreeOrColdSlot at h
  cases h1 : stageFreePreferred st exclude prefer with
  | some g1 =>
      rw [h1] at h
      cases h
      unfold stageFreePreferred at h1
      cases prefer with
      | none => cases h1
      | some pb =>
          have hpred := List.find?_some h1
          have hnc : exclude.contains g = false := by
            cases hcon : exclude.contains g with
            | false => rfl
            | true => rw [hcon] at hpred; simp at hpred
          exact not_mem_of_contains_false exclude g hnc
  | none =>
      rw [h1] at h
      cases h2 : freeSlotsAll st exclude with
      | cons g2 rest =>
          rw [h2] at h
          cases h
          have hmem : g ∈ freeSlotsAll st exclude := by
            rw [h2]; exact List.mem_cons_self _ _
          rcases List.mem_filter.mp hmem with ⟨_, hpred⟩
          have hnc : exclude.contains g = false := by
            cases hcon : exclude.contains g with
            | false => rfl
            | true => rw [hcon] at hpred; simp at hpred
          exact not_mem_of_contains_false exclude g hnc
      | nil =>
          rw [h2] at h
          have hmemlrud : g ∈ lrudSlots st exclude := by
            cases h3 : (lrudSlots st exclude).find? (coldUnpinnedPred st) with
            | some g3 =>
                rw [h3] at h
                cases h
                exact List.mem_of_find?_eq_some h3
            | none =>
                rw [h3] at h
                cases h4 : (lrudSlots st exclude).find? (unpinnedPred st) with
                | some g4 =>
                    rw [h4] at h
                    cases h
                    exact List.mem_of_find?_eq_some h4
                | none =>
                    rw [h4] at h
                    cases h5 : lrudSlots st exclude with
                    | nil => rw [h5] at h; cases h
                    | cons g5 rest5 =>
                        rw [h5] at h
                        cases h
                        simp [h5]
          exact lrudSlots_not_excluded st exclude g hmemlrud

/-! ## Claim C8 : block chain shape -/

/-- C8: for every digest function, text and window size W ≥ 1, the block
chain has length ⌈words(T)/W⌉, its i-th entry is the digest of the
space-joined i-th window of W words (the last window possibly shorter),
and the empty text yields the empty chain. -/
theorem blockHashesFromText_spec (H : String → String) (text : String) (w : Nat) (hw : 1 ≤ w) :
    (blockHashesFromText H text w).length = (wordsFromText text).length ⌈/⌉ w
    ∧ (∀ i : Nat,
        (blockHashesFromText H text w).get? i =
          if (wordsFromText text).drop (i * w) = [] then none
          else some (H (String.intercalate " " (((wordsFromText text).drop (i * w)).take w))))
    ∧ blockHashesFromText H "" w = [] := by
  refine ⟨?_, ?_, ?_⟩
  · rw [Nat.ceilDiv_eq_add_pred_div]
    rw [blockHashesFromText, List.length_map]
    exact blockChunks_length w hw (wordsFromText text)
  · intro i
    rw [blockHashesFromText, List.get?_map, blockChunks_get w hw]
    by_cases h : (wordsFromText text).drop (i * w) = [] <;> simp [h]
  · rw [blockHashesFromText]
    have h0 : wordsFromText "" = [] := by decide
    rw [h0, blockChunks_nil]
    rfl

theorem blockHashesFromText_spec_witness :
    1 ≤ 2
    ∧ (blockHashesFromText (fun s => s) "a b c" 2).length = (wordsFromText "a b c").length ⌈/⌉ 2
    ∧ (blockHashesFromText (fun s => s) "a b c" 2).get? 1 =
        (if (wordsFromText "a b c").drop (1 * 2) = [] then none
         else some ((fun s : String => s) (String.intercalate " " (((wordsFromText "a b c").drop (1 * 2)).take 2))))
    ∧ blockHashesFromText (fun s => s) "" 2 = [] :=
  ⟨by decide,
   (blockHashesFromText_spec (fun s => s) "a b c" 2 (by decide)).1,
   (blockHashesFromText_spec (fun s => s) "a b c" 2 (by decide)).2.1 1,
   (blockHashesFromText_spec (fun s => s) "a b c" 2 (by decide)).2.2⟩

/-! ## Claim C9 : similarity is total -/

theorem lcpBlocks_nil_left (b : List String) : lcpBlocks [] b = 0 := by
  cases b <;> rfl

theorem lcpBlocks_nil_right (a : List String) : lcpBlocks a [] = 0 := by
  cases a <;> rfl

/-- C9: the denominator used by both LCP phases is clamped below by 1, so
it is never zero and the embedded ratio really is the exact quotient
lcp / denom of the source; an empty chain on either side gives ratio 0. -/
theorem ratioOf_total (a b : List String) :
    1 ≤ simDenom a b ∧ (simDenom a b : ℚ) ≠ 0
    ∧ ratioOf a b = (lcpBlocks a b : ℚ) / (simDenom a b : ℚ)
    ∧ ((a = [] ∨ b = []) → ratioOf a b = 0) := by
  refine ⟨le_max_left _ _, ?_, ?_, ?_⟩
  · have h1 : (1 : Nat) ≤ simDenom a b := le_max_left _ _
    have : simDenom a b ≠ 0 := by omega
    exact_mod_cast Nat.cast_ne_zero.mpr this
  · rw [ratioOf, Rat.mkRat_eq_div]
    norm_num
  · rintro (rfl | rfl)
    · simp [ratioOf, lcpBlocks_nil_left]
    · simp [ratioOf, lcpBlocks_nil_right]

theorem ratioOf_total_witness :
    1 ≤ simDenom [] ["x"] ∧ (simDenom [] ["x"] : ℚ) ≠ 0
    ∧ ratioOf [] ["x"] = (lcpBlocks [] ["x"] : ℚ) / (simDenom [] ["x"] : ℚ)
    ∧ ratioOf [] ["x"] = 0 :=
  ⟨(ratioOf_total [] ["x"]).1, (ratioOf_total [] ["x"]).2.1,
   (ratioOf_total [] ["x"]).2.2.1,
   (ratioOf_total [] ["x"]).2.2.2 (Or.inl rfl)⟩

/-! ## Claim C10 : the restore filter and falsy words_per_block -/

/-- C10 counterexample: a record whose words_per_block field is present
with value 0 — different from the request value 16 — still passes the
filter, because 0 is falsy in Python and m.get(...) or wpb replaces it. -/
theorem restoreFilter_zero_passes :
    restoreFilterKeeps (some 0) 16 = true ∧ (some (0 : Int)).isSome = true ∧ (0 : Int) ≠ 16 := by
  decide

/-- C10 amended: a record passes the mixed-W filter exactly when its
words_per_block field is absent or null, is the falsy value 0, or equals
the request value. -/
theorem restoreFilterKeeps_iff (v : Option Int) (wpb : Int) :
    restoreFilterKeeps v wpb = true ↔ (v = none ∨ v = some 0 ∨ v = some wpb) := by
  cases v with
  | none => simp [restoreFilterKeeps, pyOrInt]
  | some n =>
      by_cases h : n = 0
      · simp [restoreFilterKeeps, pyOrInt, h]
      · simp only [restoreFilterKeeps, pyOrInt, h, if_false]
        constructor
        · intro hbeq
          have : n = wpb := by exact_mod_cast beq_iff_eq.mp hbeq
          exact Or.inr (Or.inr (by rw [this]))
        · rintro (hc | hc | hc)
          · cases hc
          · exact absurd (by injection hc) h
          · have : n = wpb := by injection hc
            simp [this]

/-! ## Claim C7 : shape of the canonical prefix -/

/-- Whether the first list is a prefix of the second, decidably. -/
def listIsPrefixB : List Char → List Char → Bool
  | [], _ => true
  | _ :: _, [] => false
  | a :: as, b :: bs => a == b && listIsPrefixB as bs

/-- Whether the needle occurs contiguously anywhere inside the haystack. -/
def containsRun (needle : List Char) : List Char → Bool
  | [] => listIsPrefixB needle []
  | c :: cs => listIsPrefixB needle (c :: cs) || containsRun needle cs

/-- C7 counterexample: the canonicalisation of a single user message is
exactly its labelled segment with no terminal assistant turn marker (the
label text assistant does not occur in the output at all), and an unknown
role is labelled with the same user delimiter as a genuine user role, so
the delimiter set does not distinguish the unknown-role fallback. -/
theorem canonicalChatPrefix_counterexample :
    canonicalChatPrefix [{ role := some "user", content := .str "hi" }] "" false = "[user]: hi"
    ∧ canonicalChatPrefix [{ role := some "tool", content := .str "hi" }] "" false
        = canonicalChatPrefix [{ role := some "user", content := .str "hi" }] "" false
    ∧ containsRun "assistant".toList "[user]: hi".toList = false := by
  refine ⟨by decide, by decide, by decide⟩

/-- Modelled from the amended claim: one labelled segment per message with
non-empty normalised content, the label being the normalised role. -/
def specSegments (messages : List ChatMessage) : List String :=
  (messages.filter (fun m => normalizeContent m.content ≠ "")).map
    (fun m => "[" ++ roleLabel m.role ++ "]: " ++ normalizeContent m.content)

/-- Modelled from the amended claim: optional BOS line, optional system
block, the message segments joined by newlines and stripped — and nothing
else: no terminal assistant marker is appended. -/
def specAssembledPrefix (messages : List ChatMessage) (sysPromptRaw : String) (addBos : Bool) : String :=
  let sysPrompt := pyStrip sysPromptRaw
  let sysParts : List String := if sysPrompt ≠ "" then ["[system]: " ++ sysPrompt] else []
  (if addBos then "<BOS>\n" else "")
    ++ pyStrip (String.intercalate "\n" (sysParts ++ specSegments messages))

theorem filterMap_eq_specSegments (ms : List ChatMessage) :
    ms.filterMap (fun m =>
      let content := normalizeContent m.content
      if content = "" then none
      else some ("[" ++ roleLabel m.role ++ "]: " ++ content)) = specSegments ms := by
  induction ms with
  | nil => rfl
  | cons m rest ih =>
      by_cases h : normalizeContent m.content = ""
      · simp [List.filterMap_cons, h, specSegments, List.filter_cons] at ih ⊢
        exact ih
      · simp [List.filterMap_cons, h, specSegments, List.filter_cons] at ih ⊢
        exact ih

/-- C7 amended: the canonical prefix is exactly the optional BOS line plus
the optional system block plus one labelled segment per non-empty message
(unknown roles falling back to the user label), newline-joined and
stripped; in particular no terminal assistant marker is part of it. -/
theorem canonicalChatPrefix_eq_assembled (ms : List ChatMessage) (sys : String) (bos : Bool) :
    canonicalChatPrefix ms sys bos = specAssembledPrefix ms sys bos := by
  unfold canonicalChatPrefix specAssembledPrefix
  rw [filterMap_eq_specSegments]
  cases bos
  · rfl
  · rfl

/-! ## Claim C6 : the metadata write is not an atomic replace -/

/-- C6 counterexample: during write_meta_for_key_local the file passes
through the truncated state produced by open(path, w), which is neither
the complete previous record nor the complete new record; a reader at that
moment, or a failure right after the truncation, does not see the previous
record intact. -/
theorem metaWrite_not_atomic :
    ¬ (∀ s ∈ metaWriteStates (some "OLD") "NEW", s = some "OLD" ∨ s = some "NEW") := by
  intro h
  have hmem : (some "" : Option String) ∈ metaWriteStates (some "OLD") "NEW" := by decide
  rcases h (some "") hmem with hc | hc <;> simp at hc

theorem strTake_length (s : String) : strTake s s.length = s := by
  cases s with
  | mk data => simp [strTake, String.toList, String.length, strTake]

/-- C6 amended: the write is a truncate-then-write, not an atomic replace:
every observable state of the file is the previous contents or some prefix
of the new record (the truncated file being the empty prefix), and the
completed write ends with the full new record, so the last writer wins for
completed writes. -/
theorem metaWriteStates_spec (prev : Option String) (record : String) (s : Option String)
    (hs : s ∈ metaWriteStates prev record) :
    (s = prev ∨ ∃ k, k ≤ record.length ∧ s = some (strTake record k))
    ∧ (metaWriteStates prev record).getLast? = some (some record) := by
  constructor
  · rcases List.mem_cons.mp hs with h | h
    · exact Or.inl h
    · rcases List.mem_map.mp h with ⟨k, hk, rfl⟩
      have hk2 := List.mem_range.mp hk
      exact Or.inr ⟨k, by omega, rfl⟩
  · unfold metaWriteStates
    rw [List.range_succ, List.map_append, List.map_singleton]
    rw [show (prev :: ((List.range record.length).map (fun k => some (strTake record k))
          ++ [some (strTake record record.length)]))
        = (prev :: (List.range record.length).map (fun k => some (strTake record k)))
          ++ [some (strTake record record.length)] from rfl]
    rw [List.getLast?_concat, strTake_length]

theorem metaWriteStates_spec_witness :
    ((some "NE" : Option String) = some "OLD"
      ∨ ∃ k, k ≤ "NEW".length ∧ (some "NE" : Option String) = some (strTake "NEW" k))
    ∧ (metaWriteStates (some "OLD") "NEW").getLast? = some (some "NEW") :=
  metaWriteStates_spec (some "OLD") "NEW" (some "NE") (by decide)

/-! ## Claim C3 : when the slot lock is released -/

/-- C3 counterexample: in the large streaming path with one chunk, the
chunk is forwarded by the generator only after the release of the slot
lock, because the return of the StreamingResponse runs the finally block
of the handler before the generator body ever executes: the first chunk is
in the trace but not among the events preceding the release. -/
theorem streamRelease_before_chunks :
    DispatchEvent.forwardChunk 0 ∈ largeStreamDispatchEvents 1
    ∧ DispatchEvent.forwardChunk 0 ∉
        (largeStreamDispatchEvents 1).takeWhile (fun e => e != DispatchEvent.releaseSlotLock) := by
  refine ⟨by decide, by decide⟩

/-- C3 amended: the slot lock is held from acquisition until the response
is returned — on the JSON path the full backend response is received
before the release; on the streaming paths the release happens when the
StreamingResponse is returned and thus before any chunk is forwarded (the
small path additionally marks the slot cold first).  The events strictly
preceding the release are exactly the acquisition, the preflight or
backend call, and the return. -/
theorem dispatch_release_order (n : Nat) :
    (largeStreamDispatchEvents n).takeWhile (fun e => e != DispatchEvent.releaseSlotLock)
      = [DispatchEvent.acquireSlotLock, DispatchEvent.preflightOpen, DispatchEvent.responseReturned]
    ∧ (smallStreamDispatchEvents n).takeWhile (fun e => e != DispatchEvent.releaseSlotLock)
      = [DispatchEvent.acquireSlotLock, DispatchEvent.preflightOpen,
         DispatchEvent.responseReturned, DispatchEvent.markColdEvent]
    ∧ largeJsonDispatchEvents.takeWhile (fun e => e != DispatchEvent.releaseSlotLock)
      = [DispatchEvent.acquireSlotLock, DispatchEvent.backendJsonReceived,
         DispatchEvent.responseReturned] := by
  refine ⟨rfl, rfl, rfl⟩

/-! ## Concrete pool states used to exercise the manager -/

/-- A hot binding whose key pk is pinned in the states below. -/
def bPinHot : SlotBinding :=
  { backendId := 0, localSlotId := 0, key := "pk", prefixText := "p",
    blockHashes := ["h0"], wordsPerBlock := 16, hot := true, lastUsedTs := 1 }

/-- The same binding demoted to cold. -/
def bPinCold : SlotBinding := { bPinHot with hot := false }

/-- One backend, one slot, occupied by the hot pinned binding. -/
def stPinHot : SMState :=
  { allSlots := [(0, 0)], bindings := [((0, 0), bPinHot)], lastUsed := [],
    pinned := ["pk"], simRatioMin := mkRat 1 2, numBackends := 1 }

/-- One backend, one slot, occupied by the cold pinned binding. -/
def stPinCold : SMState := { stPinHot with bindings := [((0, 0), bPinCold)] }

/-- One backend, one slot, free. -/
def stOneFree : SMState :=
  { allSlots := [(0, 0)], bindings := [], lastUsed := [],
    pinned := [], simRatioMin := mkRat 1 2, numBackends := 1 }

/-- One scanned metadata record matching the request chain exactly. -/
def metasOne : List MetaRecord :=
  [{ key := "ck", wordsPerBlock := some 16, blockHashes := some ["h1"] }]

/-! ## Claim C1 : pinning under mark-cold and under eviction -/

/-- C1 counterexample: mark_slot_cold demotes a pinned hot binding to cold
(the pin set is not consulted), and once every occupied slot carries a
pinned key and no free slot exists, the all-pinned fallback of the
selector hands the pinned slot to the cold path of the matching engine,
which overwrites the pinned binding with the new request key. -/
theorem pinned_demoted_and_evicted :
    alistGet (markSlotCold stPinHot (0, 0)).bindings (0, 0) = some bPinCold
    ∧ bPinHot.key ∈ stPinHot.pinned
    ∧ alistGet stPinCold.bindings (0, 0) = some bPinCold
    ∧ bPinCold.key ∈ stPinCold.pinned
    ∧ (ensureSlotForRequest stPinCold [] (fun _ _ => true) 7 "rk" "pt" ["h2"] 16).toOption.map
        (fun res => (res.slot, res.binding.key, (alistGet res.state.bindings (0, 0)).map SlotBinding.key))
      = some ((0, 0), "rk", some "rk") := by
  refine ⟨by decide, by decide, by decide, by decide, by decide⟩

/-- C1 amended: the cold-LRU and oldest-LRU stages of the selector never
return a slot with a pinned binding, so a pinned binding can be selected
for eviction only through the all-pinned fallback: when the selector
returns a slot whose binding is pinned, there is no free non-excluded slot
and every occupied non-excluded slot carries a pinned key.  (mark_slot_cold,
by contrast, demotes pinned bindings like any other.) -/
theorem acquire_pinned_only_when_allPinned
    (st : SMState) (exclude : List GSlot) (prefer : Option Nat) (g : GSlot) (b : SlotBinding)
    (hacq : acquireFreeOrColdSlot st exclude prefer = some g)
    (hget : alistGet st.bindings g = some b)
    (hpin : st.pinned.contains b.key = true) :
    freeSlotsAll st exclude = []
    ∧ ∀ g2 b2, alistGet st.bindings g2 = some b2 → g2 ∉ exclude →
        st.pinned.contains b2.key = true := by
  unfold acquireFreeOrColdSlot at hacq
  cases h1 : stageFreePreferred st exclude prefer with
  | some g1 =>
      rw [h1] at hacq
      cases hacq
      unfold stageFreePreferred at h1
      cases prefer with
      | none => cases h1
      | some pb =>
          have hpred := List.find?_some h1
          rw [hget] at hpred
          simp at hpred
  | none =>
      rw [h1] at hacq
      cases h2 : freeSlotsAll st exclude with
      | cons gf rest =>
          rw [h2] at hacq
          cases hacq
          have hmem : g ∈ freeSlotsAll st exclude := by
            rw [h2]; exact List.mem_cons_self _ _
          rcases List.mem_filter.mp hmem with ⟨_, hpred⟩
          rw [hget] at hpred
          simp at hpred
      | nil =>
          rw [h2] at hacq
          refine ⟨rfl, ?_⟩
          have hkeymem : b.key ∈ st.pinned := mem_of_contains_true _ _ hpin
          cases h3 : (lrudSlots st exclude).find? (coldUnpinnedPred st) with
          | some g3 =>
              rw [h3] at hacq
              cases hacq
              have hp := List.find?_some h3
              unfold coldUnpinnedPred at hp
              rw [hget] at hp
              simp only [Bool.and_eq_true, Bool.not_eq_true'] at hp
              exact absurd hkeymem (not_mem_of_contains_false _ _ hp.2)
          | none =>
              rw [h3] at hacq
              cases h4 : (lrudSlots st exclude).find? (unpinnedPred st) with
              | some g4 =>
                  rw [h4] at hacq
                  cases hacq
                  have hp := List.find?_some h4
                  unfold unpinnedPred at hp
                  rw [hget] at hp
                  rw [Bool.not_eq_true'] at hp
                  exact absurd hkeymem (not_mem_of_contains_false _ _ hp)
              | none =>
                  intro g2 b2 hget2 hex2
                  have hmem2 : g2 ∈ lrudSlots st exclude := by
                    apply (mem_lrudSlots_iff st exclude g2).mpr
                    rcases alistGet_eq_some_mem st.bindings g2 b2 hget2 with ⟨p, hpmem, hp1, hp2⟩
                    refine ⟨p, hpmem, hp1, ?_⟩
                    rw [hp1]
                    exact contains_false_of_not_mem exclude g2 hex2
                  have hnone := List.find?_eq_none.mp h4 g2 hmem2
                  cases hq : unpinnedPred st g2 with
                  | true => exact absurd hq hnone
                  | false =>
                      unfold unpinnedPred at hq
                      rw [hget2] at hq
                      simpa using hq

theorem acquire_pinned_only_when_allPinned_witness :
    freeSlotsAll stPinCold [] = [] ∧ stPinCold.pinned.contains bPinCold.key = true :=
  ⟨(acquire_pinned_only_when_allPinned stPinCold [] (some 0) (0, 0) bPinCold
      (by decide) (by decide) (by decide)).1,
   (acquire_pinned_only_when_allPinned stPinCold [] (some 0) (0, 0) bPinCold
      (by decide) (by decide) (by decide)).2 (0, 0) bPinCold (by decide) (by simp)⟩

/-! ## Claim C2 : a failed restore propagates instead of downgrading -/

/-- C2: with a free slot, a matching metadata candidate above the
threshold, and a failing backend restore, ensure_slot_for_request does not
return a cold binding on the selected slot: the raise_for_status error of
LlamaClient.restore_slot propagates out of the function (with the slot
lock still held, since the caller never learns which slot was selected). -/
theorem ensure_restoreFailure_raises :
    ensureSlotForRequest stOneFree metasOne (fun _ _ => false) 5 "rk" "pt" ["h1"] 16
      = .error .restoreFailed := by
  rfl

/-! ## Claim C4 : a rejected hot slot is excluded and never overwritten -/

theorem ensureCold_preserves_excluded (st : SMState) (ts : Nat) (reqKey prefixText : String)
    (reqBlocks : List String) (wpb : Nat) (exclude : List GSlot) (g : GSlot)
    (hg : g ∈ exclude) :
    match ensureCold st ts reqKey prefixText reqBlocks wpb exclude with
    | .ok res => res.slot ≠ g ∧ alistGet res.state.bindings g = alistGet st.bindings g
    | .error _ => True := by
  unfold ensureCold
  cases hacq : acquireFreeOrColdSlot st exclude (some (preferBackend st reqKey)) with
  | none => trivial
  | some g2 =>
      have hne : g2 ≠ g := fun he =>
        acquire_not_excluded st exclude _ g2 hacq (he ▸ hg)
      refine ⟨hne, ?_⟩
      show alistGet ((installBinding st g2 reqKey prefixText reqBlocks wpb ts).1).bindings g
          = alistGet st.bindings g
      simp only [installBinding, touch]
      rw [alistGet_modify_ne _ _ _ _ (Ne.symm hne), alistGet_set_ne _ _ _ _ (Ne.symm hne)]

theorem restoreOrCold_preserves_excluded (st : SMState) (metas : List MetaRecord)
    (restoreOk : GSlot → String → Bool) (ts : Nat) (reqKey prefixText : String)
    (reqBlocks : List String) (wpb : Nat) (exclude : List GSlot) (g : GSlot)
    (hg : g ∈ exclude) :
    match ensureRestoreOrCold st metas restoreOk ts reqKey prefixText reqBlocks wpb exclude with
    | .ok res => res.slot ≠ g ∧ alistGet res.state.bindings g = alistGet st.bindings g
    | .error _ => True := by
  unfold ensureRestoreOrCold
  cases hcand : bestRestoreCandidate metas reqBlocks (Int.ofNat wpb) with
  | none => exact ensureCold_preserves_excluded st ts reqKey prefixText reqBlocks wpb exclude g hg
  | some c =>
      obtain ⟨key2, l, r, candBlocks⟩ := c
      dsimp only
      by_cases hr : r ≥ st.simRatioMin
      · rw [if_pos hr]
        cases hacq : acquireFreeOrColdSlot st exclude (some (preferBackend st reqKey)) with
        | none => trivial
        | some g2 =>
            dsimp only
            have hne : g2 ≠ g := fun he =>
              acquire_not_excluded st exclude _ g2 hacq (he ▸ hg)
            cases hok : restoreOk g2 key2 with
            | false => trivial
            | true =>
                refine ⟨hne, ?_⟩
                show alistGet ((installBinding st g2 reqKey prefixText reqBlocks wpb ts).1).bindings g
                    = alistGet st.bindings g
                simp only [installBinding, touch]
                rw [alistGet_modify_ne _ _ _ _ (Ne.symm hne), alistGet_set_ne _ _ _ _ (Ne.symm hne)]
      · rw [if_neg hr]
        exact ensureCold_preserves_excluded st ts reqKey prefixText reqBlocks wpb exclude g hg

/-- C4: when there is no exact hot match and the best hot LCP candidate
sits strictly below the similarity threshold, its slot goes into the
exclude set, the selector never returns an excluded slot, and so the
rejected slot is never the returned slot and its binding entry is left
exactly as it was. -/
theorem rejected_slot_never_overwritten
    (st : SMState) (metas : List MetaRecord) (restoreOk : GSlot → String → Bool) (ts : Nat)
    (reqKey prefixText : String) (reqBlocks : List String) (wpb : Nat)
    (g : GSlot) (b : SlotBinding) (l : Nat) (r : ℚ)
    (hex : bestActiveExact st reqBlocks = none)
    (hlcp : bestActiveLcp st reqBlocks = some (g, b, l, r))
    (hlow : r < st.simRatioMin) :
    match ensureSlotForRequest st metas restoreOk ts reqKey prefixText reqBlocks wpb with
    | .ok res => res.slot ≠ g ∧ alistGet res.state.bindings g = alistGet st.bindings g
    | .error _ => True := by
  unfold ensureSlotForRequest
  simp only [hex, hlcp]
  rw [if_neg (not_le.mpr hlow)]
  exact restoreOrCold_preserves_excluded st metas restoreOk ts reqKey prefixText reqBlocks wpb
    [g] g (List.mem_cons_self _ _)

/-- A hot binding sharing no block with the request chain, used to force a
rejected LCP candidate. -/
def bHotLow : SlotBinding :=
  { backendId := 0, localSlotId := 0, key := "ok", prefixText := "q",
    blockHashes := ["x1"], wordsPerBlock := 16, hot := true, lastUsedTs := 1 }

/-- One backend with two slots; slot 0 carries the low-similarity hot
binding, slot 1 is free. -/
def stTwoSlots : SMState :=
  { allSlots := [(0, 0), (0, 1)], bindings := [((0, 0), bHotLow)], lastUsed := [],
    pinned := [], simRatioMin := mkRat 1 2, numBackends := 1 }

theorem rejected_slot_never_overwritten_witness :
    match ensureSlotForRequest stTwoSlots [] (fun _ _ => true) 9 "rk" "pt" ["h1"] 16 with
    | .ok res => res.slot ≠ (0, 0) ∧ alistGet res.state.bindings (0, 0) = alistGet stTwoSlots.bindings (0, 0)
    | .error _ => True :=
  rejected_slot_never_overwritten stTwoSlots [] (fun _ _ => true) 9 "rk" "pt" ["h1"] 16
    (0, 0) bHotLow 0 0 (by decide) (by decide) (by decide)

/-! ## Claim C5 : restore-lcp installs the request identity -/

theorem find?_alistSet_hit (l : List (GSlot × SlotBinding)) (g : GSlot) (b : SlotBinding)
    (pred : GSlot × SlotBinding → Bool)
    (hnone : ∀ p ∈ l, ¬ pred p = true) (hb : pred (g, b) = true) :
    (alistSet l g b).find? pred = some (g, b) := by
  induction l with
  | nil => simp [alistSet, List.find?, hb]
  | cons p rest ih =>
      by_cases hp : p.1 = g
      · simp only [alistSet, hp, if_true]
        simp [List.find?, hb]
      · simp only [alistSet, hp, if_false]
        have hpf : ¬ pred p = true := hnone p (List.mem_cons_self _ _)
        have ih2 := ih (fun q hq => hnone q (List.mem_cons_of_mem _ hq))
        simp only [List.find?, Bool.not_eq_true] at hpf ⊢
        rw [hpf, ih2]

/-- The conclusions of claim C5 about a result res of the matching engine. -/
def restoreIdentityProp (st : SMState) (reqKey prefixText : String) (reqBlocks : List String)
    (wpb : Nat) (res : EnsureResult) : Prop :=
  res.binding.key = reqKey ∧ res.binding.blockHashes = reqBlocks
  ∧ res.binding.prefixText = prefixText ∧ res.binding.wordsPerBlock = wpb
  ∧ res.binding.hot = true
  ∧ alistGet res.state.bindings res.slot = some res.binding
  ∧ bestActiveExact res.state reqBlocks = some (res.slot, res.binding)
  ∧ st.allSlots = res.state.allSlots

theorem alistGet_set_self {α β : Type} [DecidableEq α] (l : List (α × β)) (a : α) (b : β) :
    alistGet (alistSet l a b) a = some b := by
  induction l with
  | nil => simp [alistSet, alistGet, List.find?]
  | cons p rest ih =>
      by_cases hp : p.1 = a
      · simp [alistSet, alistGet, List.find?, hp]
      · simp only [alistSet, hp, if_false]
        have hb : (p.1 == a) = false := beq_eq_false_iff_ne.mpr hp
        simp only [alistGet, List.find?, hb] at ih ⊢
        exact ih

theorem restoreOrCold_restore_identity (st : SMState) (metas : List MetaRecord)
    (restoreOk : GSlot → String → Bool) (ts : Nat) (reqKey prefixText : String)
    (reqBlocks : List String) (wpb : Nat) (exclude : List GSlot) (res : EnsureResult)
    (hex : bestActiveExact st reqBlocks = none)
    (h : ensureRestoreOrCold st metas restoreOk ts reqKey prefixText reqBlocks wpb exclude = .ok res)
    (hsrc : res.source = .restoreLcp) :
    restoreIdentityProp st reqKey prefixText reqBlocks wpb res := by
  have hcold : ∀ exc : List GSlot,
      ensureCold st ts reqKey prefixText reqBlocks wpb exc = .ok res → False := by
    intro exc hc
    unfold ensureCold at hc
    cases hacq : acquireFreeOrColdSlot st exc (some (preferBackend st reqKey)) with
    | none => rw [hacq] at hc; cases hc
    | some g2 =>
        rw [hacq] at hc
        cases hc
        cases hsrc
  unfold ensureRestoreOrCold at h
  cases hcand : bestRestoreCandidate metas reqBlocks (Int.ofNat wpb) with
  | none =>
      rw [hcand] at h
      exact absurd h (fun hc => hcold exclude hc)
  | some c =>
      obtain ⟨key2, l, r, candBlocks⟩ := c
      rw [hcand] at h
      dsimp only at h
      by_cases hr : r ≥ st.simRatioMin
      · rw [if_pos hr] at h
        cases hacq : acquireFreeOrColdSlot st exclude (some (preferBackend st reqKey)) with
        | none => rw [hacq] at h; cases h
        | some g2 =>
            rw [hacq] at h
            dsimp only at h
            cases hok : restoreOk g2 key2 with
            | false => rw [hok] at h; simp at h
            | true =>
                rw [hok] at h
                simp only [if_true] at h
                cases h
                unfold restoreIdentityProp
                refine ⟨rfl, rfl, rfl, rfl, rfl, ?_, ?_, rfl⟩
                · show alistGet ((installBinding st g2 reqKey prefixText reqBlocks wpb ts).1).bindings g2
                      = some (installBinding st g2 reqKey prefixText reqBlocks wpb ts).2
                  simp only [installBinding, touch]
                  rw [alistModify_set_same]
                  exact alistGet_set_self _ _ _
                · show bestActiveExact (installBinding st g2 reqKey prefixText reqBlocks wpb ts).1 reqBlocks
                      = some (g2, (installBinding st g2 reqKey prefixText reqBlocks wpb ts).2)
                  unfold bestActiveExact at hex ⊢
                  simp only [installBinding, touch]
                  rw [alistModify_set_same]
                  have hnone : ∀ p ∈ st.bindings,
                      ¬ (p.2.hot && (p.2.blockHashes == reqBlocks)) = true := by
                    intro p hp
                    cases hfind : st.bindings.find? (fun q => q.2.hot && (q.2.blockHashes == reqBlocks)) with
                    | none => exact List.find?_eq_none.mp hfind p hp
                    | some q => rw [hfind] at hex; cases hex
                  rw [find?_alistSet_hit st.bindings g2 _ _ hnone (by simp)]
      · rw [if_neg hr] at h
        exact absurd h (fun hc => hcold exclude hc)

/-- C5: whenever ensure_slot_for_request answers with source restore-lcp,
the binding installed on the returned slot carries the request key, the
request block-hash chain, the request canonical text and the request
words_per_block — not the candidate identity — it is hot, it is the
binding stored at the returned slot, and an exact lookup with the same
request chain in the resulting state hits exactly this new binding. -/
theorem restore_installs_request_identity (st : SMState) (metas : List MetaRecord)
    (restoreOk : GSlot → String → Bool) (ts : Nat) (reqKey prefixText : String)
    (reqBlocks : List String) (wpb : Nat) (res : EnsureResult)
    (h : ensureSlotForRequest st metas restoreOk ts reqKey prefixText reqBlocks wpb = .ok res)
    (hsrc : res.source = .restoreLcp) :
    restoreIdentityProp st reqKey prefixText reqBlocks wpb res := by
  unfold ensureSlotForRequest at h
  cases hex : bestActiveExact st reqBlocks with
  | some p =>
      obtain ⟨g, b⟩ := p
      rw [hex] at h
      dsimp only at h
      cases h
      cases hsrc
  | none =>
      rw [hex] at h
      cases hlcp : bestActiveLcp st reqBlocks with
      | some c =>
          obtain ⟨g, b, l, r⟩ := c
          rw [hlcp] at h
          dsimp only at h
          by_cases hr : r ≥ st.simRatioMin
          · rw [if_pos hr] at h
            cases h
            cases hsrc
          · rw [if_neg hr] at h
            exact restoreOrCold_restore_identity st metas restoreOk ts reqKey prefixText
              reqBlocks wpb [g] res hex h hsrc
      | none =>
          rw [hlcp] at h
          exact restoreOrCold_restore_identity st metas restoreOk ts reqKey prefixText
            reqBlocks wpb [] res hex h hsrc

/-- The binding installed by the witness run of the restore path. -/
def bReqW : SlotBinding :=
  { backendId := 0, localSlotId := 0, key := "rk", prefixText := "pt",
    blockHashes := ["h1"], wordsPerBlock := 16, hot := true, lastUsedTs := 5 }

/-- The full result of the witness run of the restore path. -/
def resRestoreW : EnsureResult :=
  { state :=
      { allSlots := [(0, 0)], bindings := [((0, 0), bReqW)], lastUsed := [((0, 0), 5)],
        pinned := [], simRatioMin := mkRat 1 2, numBackends := 1 },
    slot := (0, 0), binding := bReqW, source := .restoreLcp,
    lcpCount := 1, bindingTotal := 1 }

theorem restore_installs_request_identity_witness :
    restoreIdentityProp stOneFree "rk" "pt" ["h1"] 16 resRestoreW :=
  restore_installs_request_identity stOneFree metasOne (fun _ _ => true) 5 "rk" "pt" ["h1"] 16
    resRestoreW (by rfl) (by rfl)

end ProxyCache
